import Mathlib

/-!
Verification of the GPy parameterization core (`GPy/core/parameterization/parameter_core.py`,
`GPy/util/caching.py`) against its natural-language specification.

The Python classes are shallowly embedded: observer registries become lists of
entries, the parameter tree becomes explicit state (lists of child sizes,
registries as association lists of flat positions), numpy arrays become Lean
lists, and the relevant methods become pure functions on those states.
Objects are identified by natural-number ids where only identity matters.
-/

/-! ## Observer bus (`Observable`, parameter_core.py lines 35-90) -/

/-- Observer priorities: integers extended with a bottom element standing for the
`-np.inf` priority that `add_parameter` uses when subscribing a container to its
child (parameter_core.py line 774). -/
abbrev Priority := WithBot ℤ

/-- One entry of `Observable._observer_callables_`: a `(priority, observer, callble)`
triple as inserted at parameter_core.py line 90.  Observers and callables are
modelled by ids; for registries built by `build_registry` the `callble` id is the
insertion sequence number, recording insertion order. -/
structure ObsEntry where
  priority : Priority
  observer : ℕ
  callble : ℕ
deriving DecidableEq, Inhabited

/-- `Observable._insert_sorted(p, o, c)` (parameter_core.py lines 84-90): the loop
scans entries while `p <= pr` and inserts the new triple before the first entry
whose priority is strictly smaller than `p`. -/
def insert_sorted (p : Priority) (o c : ℕ) : List ObsEntry → List ObsEntry
  | [] => [⟨p, o, c⟩]
  | e :: rest =>
    if e.priority < p then ⟨p, o, c⟩ :: e :: rest
    else e :: insert_sorted p o c rest

/-- `Observable.add_observer(observer, callble, priority)` (parameter_core.py
lines 47-48). -/
def add_observer (obs : List ObsEntry) (observer callble : ℕ) (priority : Priority) :
    List ObsEntry :=
  insert_sorted priority observer callble obs

/-- The bounded branch of `notify_observers` (parameter_core.py lines 79-82):
walk the registry in list order, invoking each callback until the first entry
whose priority is `<= min_priority`, where the loop breaks. -/
def notify_bounded (m : Priority) : List ObsEntry → List ℕ
  | [] => []
  | e :: rest => if e.priority ≤ m then [] else e.callble :: notify_bounded m rest

/-- `Observable.notify_observers(which, min_priority)` (parameter_core.py lines
62-82), returning the ids of the invoked callbacks in invocation order.  With
`min_priority = None` every callback is invoked in list order. -/
def notify_observers (obs : List ObsEntry) : Option Priority → List ℕ
  | none => obs.map fun e => e.callble
  | some m => notify_bounded m obs

/-- Strict order maintained by the registry: higher priority first, and among
equal priorities the smaller insertion sequence number first. -/
def obsBefore (a b : ObsEntry) : Prop :=
  b.priority < a.priority ∨ (a.priority = b.priority ∧ a.callble < b.callble)

instance : DecidableRel obsBefore := fun a b => by
  unfold obsBefore; infer_instance

/-- Registry resulting from a sequence of `add_observer` calls: the i-th request
`(priority, observer)` in `reqs` registers callble id `n + i`, so callble ids
record insertion order.  `obs` is the registry built so far. -/
def build_registry_from (n : ℕ) : List (Priority × ℕ) → List ObsEntry → List ObsEntry
  | [], obs => obs
  | r :: rest, obs => build_registry_from (n + 1) rest (add_observer obs r.2 n r.1)

/-- Registry after the calls `add_observer(reqs[i].2, i, reqs[i].1)` for i = 0, 1, ...
starting from the empty registry of a fresh `Observable`. -/
def build_registry (reqs : List (Priority × ℕ)) : List ObsEntry :=
  build_registry_from 0 reqs []

theorem obsBefore_le {a b : ObsEntry} (h : obsBefore a b) : b.priority ≤ a.priority := by
  rcases h with h | ⟨h, _⟩
  · exact le_of_lt h
  · exact le_of_eq h.symm

theorem mem_insert_sorted {x : ObsEntry} {p : Priority} {o c : ℕ} {l : List ObsEntry}
    (h : x ∈ insert_sorted p o c l) : x = ⟨p, o, c⟩ ∨ x ∈ l := by
  induction l with
  | nil => simpa [insert_sorted] using h
  | cons e rest ih =>
    by_cases hc : e.priority < p
    · simp only [insert_sorted, if_pos hc, List.mem_cons] at h
      rcases h with h | h | h
      · exact Or.inl h
      · exact Or.inr (by simp [h])
      · exact Or.inr (List.mem_cons_of_mem e h)
    · simp only [insert_sorted, if_neg hc, List.mem_cons] at h
      rcases h with h | h
      · exact Or.inr (h ▸ List.mem_cons_self e rest)
      · rcases ih h with h | h
        · exact Or.inl h
        · exact Or.inr (List.mem_cons_of_mem e h)

theorem insert_sorted_pairwise {p : Priority} {o n : ℕ} {l : List ObsEntry}
    (hp : l.Pairwise obsBefore) (hb : ∀ e ∈ l, e.callble < n) :
    (insert_sorted p o n l).Pairwise obsBefore := by
  induction l with
  | nil => simp [insert_sorted]
  | cons e rest ih =>
    rcases List.pairwise_cons.1 hp with ⟨hR, hrest⟩
    by_cases hc : e.priority < p
    · simp only [insert_sorted, if_pos hc]
      refine List.Pairwise.cons ?_ hp
      intro a ha
      rcases List.mem_cons.1 ha with ha | ha
      · subst ha; exact Or.inl hc
      · exact Or.inl (lt_of_le_of_lt (obsBefore_le (hR a ha)) hc)
    · simp only [insert_sorted, if_neg hc]
      refine List.Pairwise.cons ?_ (ih hrest fun x hx => hb x (List.mem_cons_of_mem e hx))
      intro a ha
      rcases mem_insert_sorted ha with ha | ha
      · subst ha
        rcases lt_or_eq_of_le (le_of_not_lt hc) with h | h
        · exact Or.inl h
        · exact Or.inr ⟨h.symm, hb e (List.mem_cons_self e rest)⟩
      · exact hR a ha

theorem insert_sorted_perm (p : Priority) (o c : ℕ) (l : List ObsEntry) :
    (insert_sorted p o c l).Perm (⟨p, o, c⟩ :: l) := by
  induction l with
  | nil => simp [insert_sorted]
  | cons e rest ih =>
    by_cases hc : e.priority < p
    · simp [insert_sorted, if_pos hc]
    · simp only [insert_sorted, if_neg hc]
      exact (List.Perm.cons e ih).trans (List.Perm.swap _ _ _)

theorem build_registry_from_spec (reqs : List (Priority × ℕ)) :
    ∀ (n : ℕ) (obs : List ObsEntry), obs.Pairwise obsBefore →
      (∀ e ∈ obs, e.callble < n) →
      (build_registry_from n reqs obs).Pairwise obsBefore ∧
      ((build_registry_from n reqs obs).map fun e => (e.priority, e.observer)).Perm
        ((obs.map fun e => (e.priority, e.observer)) ++ reqs) := by
  induction reqs with
  | nil =>
    intro n obs hp _
    exact ⟨hp, by simp [build_registry_from]⟩
  | cons r rest ih =>
    obtain ⟨rp, ro⟩ := r
    intro n obs hp hb
    have hins : (insert_sorted rp ro n obs).Pairwise obsBefore :=
      insert_sorted_pairwise hp hb
    have hbs : ∀ e ∈ insert_sorted rp ro n obs, e.callble < n + 1 := by
      intro e he
      rcases mem_insert_sorted he with he | he
      · subst he; exact Nat.lt_succ_self n
      · exact Nat.lt_succ_of_lt (hb e he)
    rcases ih (n + 1) (insert_sorted rp ro n obs) hins hbs with ⟨h1, h2⟩
    refine ⟨h1, ?_⟩
    show ((build_registry_from (n + 1) rest (insert_sorted rp ro n obs)).map
      fun e => (e.priority, e.observer)).Perm _
    refine h2.trans ?_
    have hmap : ((insert_sorted rp ro n obs).map fun e => (e.priority, e.observer)).Perm
        ((rp, ro) :: obs.map fun e => (e.priority, e.observer)) :=
      (insert_sorted_perm rp ro n obs).map _
    refine (hmap.append_right rest).trans ?_
    simp only [List.cons_append]
    exact List.perm_middle.symm

/-- C9: after every sequence of `add_observer` calls the observer registry is
sorted in non-increasing priority order, with equal-priority entries ordered by
insertion sequence (earlier-inserted first); moreover the registry holds exactly
the registered (priority, observer) pairs. -/
theorem add_observer_sorted_stable (reqs : List (Priority × ℕ)) :
    (build_registry reqs).Pairwise obsBefore ∧
    ((build_registry reqs).map fun e => (e.priority, e.observer)).Perm reqs := by
  rcases build_registry_from_spec reqs 0 [] (List.Pairwise.nil) (by intro e he; cases he)
    with ⟨h1, h2⟩
  exact ⟨h1, by simpa using h2⟩

theorem notify_bounded_spec (m : Priority) :
    ∀ obs : List ObsEntry, obs.Pairwise (fun a b => b.priority ≤ a.priority) →
    ∃ k, k ≤ obs.length ∧
      notify_bounded m obs = ((obs.take k).map fun e => e.callble) ∧
      (∀ i, i < k → m < (obs.getD i default).priority) ∧
      (∀ i, k ≤ i → i < obs.length → (obs.getD i default).priority ≤ m) := by
  intro obs
  induction obs with
  | nil =>
    intro _
    exact ⟨0, le_rfl, rfl, fun i hi => absurd hi (Nat.not_lt_zero i),
      fun i _ hi => absurd hi (Nat.not_lt_zero i)⟩
  | cons e rest ih =>
    intro hp
    rcases List.pairwise_cons.1 hp with ⟨hR, hrest⟩
    by_cases hc : e.priority ≤ m
    · refine ⟨0, Nat.zero_le _, by simp [notify_bounded, hc], ?_, ?_⟩
      · intro i hi; exact absurd hi (Nat.not_lt_zero i)
      · intro i _ hilen
        cases i with
        | zero => simpa using hc
        | succ j =>
          have hj : j < rest.length := by simpa using hilen
          have hmem : rest.getD j default ∈ rest := by
            rw [List.getD_eq_getElem rest default hj]
            exact List.getElem_mem hj
          calc ((e :: rest).getD (j + 1) default).priority
              = (rest.getD j default).priority := by simp [List.getD_cons_succ]
            _ ≤ e.priority := hR (rest.getD j default) hmem
            _ ≤ m := hc
    · rcases ih hrest with ⟨k, hk, h2, h3, h4⟩
      refine ⟨k + 1, by simpa using Nat.succ_le_succ hk, ?_, ?_, ?_⟩
      · simp [notify_bounded, hc, h2, List.take_succ_cons]
      · intro i hi
        cases i with
        | zero => simpa [List.getD_cons_zero] using lt_of_not_le hc
        | succ j => simpa [List.getD_cons_succ] using h3 j (by omega)
      · intro i hki hilen
        cases i with
        | zero => omega
        | succ j =>
          have hj : j < rest.length := by simpa using hilen
          simpa [List.getD_cons_succ] using h4 j (by omega) hj

/-- C3: in `notify_observers`, when `min_priority` is `None` every registered
callback is invoked in list order (with the priority-sorted invariant, that is
descending-priority order); when `min_priority = m` is given, the callbacks of a
prefix of the registry are invoked in order, every invoked entry has priority
strictly greater than `m`, and iteration stops at the first entry with priority
`<= m`: that entry and all later entries are not invoked. -/
theorem notify_observers_ordering (obs : List ObsEntry)
    (hsorted : obs.Pairwise fun a b => b.priority ≤ a.priority) :
    notify_observers obs none = (obs.map fun e => e.callble) ∧
    ∀ m : Priority, ∃ k, k ≤ obs.length ∧
      notify_observers obs (some m) = ((obs.take k).map fun e => e.callble) ∧
      (∀ i, i < k → m < (obs.getD i default).priority) ∧
      (∀ i, k ≤ i → i < obs.length → (obs.getD i default).priority ≤ m) :=
  ⟨rfl, fun m => notify_bounded_spec m obs hsorted⟩

/-- Concrete sorted registry used as the witness input for C3. -/
def obsRegistryExample : List ObsEntry :=
  [⟨((2 : ℤ) : Priority), 0, 10⟩, ⟨((1 : ℤ) : Priority), 1, 11⟩,
   ⟨((1 : ℤ) : Priority), 2, 12⟩, ⟨(⊥ : Priority), 3, 13⟩]

/-- Witness for C3 at a concrete sorted registry. -/
theorem notify_observers_ordering_witness :
    (obsRegistryExample.Pairwise fun a b => b.priority ≤ a.priority) ∧
    (notify_observers obsRegistryExample none =
        (obsRegistryExample.map fun e => e.callble) ∧
      ∀ m : Priority, ∃ k, k ≤ obsRegistryExample.length ∧
        notify_observers obsRegistryExample (some m) =
          ((obsRegistryExample.take k).map fun e => e.callble) ∧
        (∀ i, i < k → m < (obsRegistryExample.getD i default).priority) ∧
        (∀ i, k ≤ i → i < obsRegistryExample.length →
          (obsRegistryExample.getD i default).priority ≤ m)) :=
  ⟨by decide, notify_observers_ordering obsRegistryExample (by decide)⟩

/-! ## Parameter containers (`Parameterizable`, parameter_core.py lines 653-917)

The parameter hierarchy is modelled as a tree of nodes, each carrying the
`size` attribute the object stores (`self.size`, an exact Python integer) and
its ordered list of child subtrees (`_parameters_`).  A leaf `Param` is a node
with no children whose stored size is its actual size.  The stored size of a
container is maintained only locally: `add_parameter` (lines 737-782) does
`self.size += param.size` and never updates any ancestor's `size`, and
`remove_parameter` (lines 792-817) does `self.size -= param.size` with the
child's **live** size — its ancestor loop (lines 812-817) calls
`_connect_fixes` / `_connect_parameters` / `_notify_parent_change`, none of
which recomputes `size`.  So a stored size can go stale — or negative — once an
attached child container is itself edited. -/

inductive PTree where
  | node (size : ℤ) (children : List PTree)

/-- The stored `self.size` attribute of a node. -/
def PTree.size : PTree → ℤ
  | .node s _ => s

/-- The ordered child list `self._parameters_` of a node. -/
def PTree.children : PTree → List PTree
  | .node _ cs => cs

/-- `Parameterizable.add_parameter(param, index)` on the branch where `param`
is not yet a child (parameter_core.py lines 753-780), acting on the receiving
node only: append when `index is None`, else `list.insert(index, param)`
(which, as in Python, clamps the index to the list length), and
`self.size += param.size`.  No ancestor is touched. -/
def add_parameter_node (child : PTree) (index : Option ℕ) : PTree → PTree
  | .node s cs =>
    match index with
    | none => .node (s + child.size) (cs ++ [child])
    | some i => .node (s + child.size) (cs.insertIdx (min i cs.length) child)

/-- One structural edit, addressed at the node of the hierarchy it is invoked
on: `add_parameter` of a fresh subtree, `remove_parameter` of the idx-th child,
or the re-add of an existing child at a new index. -/
inductive TreeOp where
  | add (path : List ℕ) (child : PTree) (index : Option ℕ)
  | remove (path : List ℕ) (idx : ℕ)
  | readd (path : List ℕ) (idx index : ℕ)

/-- The node an edit is invoked on. -/
def TreeOp.path : TreeOp → List ℕ
  | .add p _ _ => p
  | .remove p _ => p
  | .readd p _ _ => p

inductive CEvent where
  | registerObserver (priority : Priority)
  | hookParametersChanged
deriving DecidableEq

/-- `add_parameter` together with the trace of notification-relevant events it
emits, per the call-tree analysis above: exactly one observer registration at
priority `-inf` and no `parameters_changed` invocation. -/
def add_parameter_events (t : PTree) (child : PTree) (index : Option ℕ) :
    PTree × List CEvent :=
  (add_parameter_node child index t, [CEvent.registerObserver ⊥])

/-- C4 counterexample: on a fresh container, `add_parameter` of a size-1 child
invokes the `parameters_changed()` hook zero times, not exactly once. -/
theorem add_parameter_hook_not_once :
    ¬ ((add_parameter_events (PTree.node 0 []) (PTree.node 1 []) none).2.count
        CEvent.hookParametersChanged = 1) := by
  decide

/-- C4 amended: a successful `add_parameter(node)` never invokes the container's
`parameters_changed()` hook; the only notification-related effect of the edit is
subscribing the container to the new child's mutation events at `-inf` priority
(the hook can only fire later, via the notification cascade of a value change). -/
theorem add_parameter_hook_count (t child : PTree) (index : Option ℕ) :
    (add_parameter_events t child index).2.count CEvent.hookParametersChanged = 0 ∧
    (add_parameter_events t child index).2 = [CEvent.registerObserver ⊥] ∧
    (add_parameter_events t child index).1 = add_parameter_node child index t :=
  ⟨rfl, rfl, rfl⟩

/-! ## Index registries (`constraints` / `priors`)

The registry class `ParameterIndexOperations` lives in `index_operations.py`,
which is not part of the sources; its operations are modelled from the spec.
A registry maps a transform/prior id to the list of flat positions it
governs. -/

/-- A registry: association list from a transform/prior id to the flat
positions it governs. -/
abbrev Registry := List (ℕ × List ℕ)

/-- Modelled from the spec: `shift_left(offset, amount)` of the missing
`index_operations.py` — renumber every stored position at or beyond `offset`
down by `amount` when a sibling of size `amount` is removed before it
(spec section 4.3). -/
def shift_left (r : Registry) (offset amount : ℕ) : Registry :=
  r.map fun ti => (ti.1, ti.2.map fun p => if offset ≤ p then p - amount else p)

/-- Modelled from the spec: `shift_right(offset, amount)` of the missing
`index_operations.py` — renumber every stored position at or beyond `offset`
up by `amount` when a sibling of size `amount` is inserted before it
(spec section 4.3). -/
def shift_right (r : Registry) (offset amount : ℕ) : Registry :=
  r.map fun ti => (ti.1, ti.2.map fun p => if offset ≤ p then p + amount else p)

/-- Modelled from the spec: clearing a node's registry view removes the view's
positions `[offset, offset + size)` from the underlying ancestor registry
(spec section 3 invariant 3 and section 4.3; used by `_disconnect_parent`,
parameter_core.py lines 329-341, via `self.constraints.clear()`). -/
def clear_range (r : Registry) (offset size : ℕ) : Registry :=
  r.map fun ti => (ti.1, ti.2.filter fun p => decide (p < offset) || decide (offset + size ≤ p))

/-- Effect of `Parameterizable.remove_parameter` (parameter_core.py lines
792-817) on the parent's two registries, for a removed direct child whose flat
range is `[start, start + size)`: `param._disconnect_parent()` (lines 329-341)
copies and then clears the child's **constraints** view, removing those
positions from the parent's constraints registry, and then line 806 runs
`self.constraints.shift_left(start, param.size)`.  The parent's **priors**
registry is never touched by the source: `_disconnect_parent` only handles
`self.constraints`, and `remove_parameter` calls no `self.priors` method. -/
def remove_parameter_registries (constraints priors : Registry) (start size : ℕ) :
    Registry × Registry :=
  (shift_left (clear_range constraints start size) start size, priors)

/-- C5 evaluated at the failing input: container with children of sizes 1 and 1,
a constraint (id 7) on both flat positions and a prior (id 3) on position 1;
removing child 0 (start 0, size 1) shifts the constraint position 1 down to 0,
but leaves the prior stored at position 1 — the claim requires it at 0. -/
theorem remove_parameter_priors_not_shifted :
    remove_parameter_registries [(7, [0, 1])] [(3, [1])] 0 1 =
      ([(7, [0])], [(3, [1])]) ∧
    ([(3, [1])] : Registry) ≠ [(3, [0])] := by
  constructor
  · rfl
  · decide

/-! ## C6: the hierarchy check of `add_parameter` -/

/-- Parent pointers of the node hierarchy: association list from a node id to
its parent's id; an id absent from the list has no parent
(`_parent_ is None`). -/
abbrev ParentMap := List (ℕ × ℕ)

/-- `_parent_` lookup. -/
def lookup_parent (env : ParentMap) (x : ℕ) : Option ℕ :=
  (env.find? fun pr => pr.1 == x).map fun pr => pr.2

/-- The while loop of `add_parameter` (parameter_core.py lines 755-759):
`parent = param._parent_; while parent is not None: if parent is self: raise
HierarchyError(...); parent = parent._parent_` — walks `start`'s parent chain
looking for `target`.  `fuel` bounds the walk; any fuel at least the chain
length gives the Python loop's answer. -/
def chain_contains (env : ParentMap) : ℕ → ℕ → ℕ → Bool
  | 0, _, _ => false
  | fuel + 1, start, target =>
    match lookup_parent env start with
    | none => false
    | some par => par == target || chain_contains env fuel par target

/-- Whether `add_parameter(param)` on container `self` raises `HierarchyError`
(parameter_core.py lines 750-760): the check runs only on the
`param not in self._parameters_` branch and only when `param` has a parent,
and it walks `param`'s own parent chain looking for `self`. -/
def add_parameter_raises_hierarchy_error (env : ParentMap) (fuel : ℕ)
    (children : List ℕ) (selfId paramId : ℕ) : Bool :=
  !(children.contains paramId) && chain_contains env fuel paramId selfId

/-- `a` is an ancestor of `b`: `a` occurs in `b`'s parent chain. -/
inductive Ancestor (env : ParentMap) : ℕ → ℕ → Prop
  | parent {x p : ℕ} : lookup_parent env x = some p → Ancestor env p x
  | step {x p a : ℕ} : lookup_parent env x = some p → Ancestor env a p →
      Ancestor env a x

theorem chain_contains_ancestor {env : ParentMap} :
    ∀ {fuel start target : ℕ}, chain_contains env fuel start target = true →
      Ancestor env target start := by
  intro fuel
  induction fuel with
  | zero => intro start target h; simp [chain_contains] at h
  | succ f ih =>
    intro start target h
    unfold chain_contains at h
    cases hl : lookup_parent env start with
    | none => rw [hl] at h; simp at h
    | some par =>
      rw [hl] at h
      simp only [Bool.or_eq_true, beq_iff_eq] at h
      rcases h with h | h
      · exact h ▸ Ancestor.parent hl
      · exact Ancestor.step hl (ih h)

theorem ancestor_chain_contains {env : ParentMap} {a x : ℕ}
    (h : Ancestor env a x) : ∃ fuel, chain_contains env fuel x a = true := by
  induction h with
  | parent hl =>
    exact ⟨1, by unfold chain_contains; rw [hl]; simp⟩
  | step hl _ ih =>
    rcases ih with ⟨fuel, hf⟩
    exact ⟨fuel + 1, by unfold chain_contains; rw [hl]; simp [hf]⟩

/-- C6 counterexample: with node 1 the parent of container 0 (so node 1 **is**
an ancestor of container 0), `add_parameter(node 1)` on container 0 raises no
`HierarchyError` (the walk inspects node 1's own parents and finds none) — the
code does not detect the cycle the claim requires it to. -/
theorem add_parameter_cycle_not_detected :
    Ancestor [(0, 1)] 1 0 ∧
    add_parameter_raises_hierarchy_error [(0, 1)] 2 [] 0 1 = false :=
  ⟨Ancestor.parent (by decide), by decide⟩

/-- C6 amended: for `param` not already a direct child, `add_parameter` raises
`HierarchyError` exactly when the **container** is an ancestor of `param`
(i.e. `param` already sits somewhere below the container); in particular it does
not raise when `param` is an ancestor of the container, so the cycle in the
original claim is not detected. -/
theorem add_parameter_hierarchy_check (env : ParentMap) (children : List ℕ)
    (selfId paramId : ℕ) (h : children.contains paramId = false) :
    (∃ fuel,
        add_parameter_raises_hierarchy_error env fuel children selfId paramId = true)
      ↔ Ancestor env selfId paramId := by
  constructor
  · rintro ⟨fuel, hf⟩
    simp only [add_parameter_raises_hierarchy_error, h, Bool.not_false,
      Bool.true_and] at hf
    exact chain_contains_ancestor hf
  · intro ha
    rcases ancestor_chain_contains ha with ⟨fuel, hf⟩
    exact ⟨fuel, by
      simp only [add_parameter_raises_hierarchy_error, h, Bool.not_false,
        Bool.true_and]
      exact hf⟩

/-- Witness for the amended C6: container 0 is the parent of node 1, and
`add_parameter(node 1)` on container 0 raises `HierarchyError` for some fuel. -/
theorem add_parameter_hierarchy_check_witness :
    ([] : List ℕ).contains 1 = false ∧
    ((∃ fuel, add_parameter_raises_hierarchy_error [(1, 0)] fuel [] 0 1 = true)
      ↔ Ancestor [(1, 0)] 0 1) :=
  ⟨by decide, add_parameter_hierarchy_check [(1, 0)] [] 0 1 (by decide)⟩

/-! ## C7: `unconstrain` with explicitly named transforms -/

/-- Modelled from the spec: `remove(transform, indices)` of the missing
`index_operations.py` — removes the given flat positions from the transform's
index set and returns the removed positions (spec section 4.3). -/
def registry_remove (r : Registry) (t : ℕ) (idx : List ℕ) : Registry × List ℕ :=
  (r.map fun ti => if ti.1 = t then (ti.1, ti.2.filter fun p => !(idx.contains p)) else ti,
   ((r.filter fun ti => ti.1 == t).map fun ti => ti.2.filter fun p => idx.contains p).flatten)

/-- `Constrainable._remove_from_index_operations(which, what)` (parameter_core.py
lines 521-535), called by `unconstrain(*transforms)` (lines 442-449) with
`what` the explicitly named transforms and `rav` the node's raveled index.
The local variable `transforms` is assigned only under `if len(what) == 0:`;
when explicit transforms are passed the loop `for t in transforms:` reads an
unbound local, so Python raises `NameError`, modelled as the error case. -/
def remove_from_index_operations (which : Registry) (rav : List ℕ)
    (what : List ℕ) : Except String (Registry × List ℕ) :=
  match what with
  | [] =>
    Except.ok ((which.map fun ti => ti.1).foldl
      (fun acc t =>
        let res := registry_remove acc.1 t rav
        (res.1, acc.2.union res.2))
      (which, []))
  | _ :: _ => Except.error "NameError: local variable transforms referenced before assignment"

/-- C7 evaluated on the failing inputs: `unconstrain` with any explicitly named
transform — registered or not — raises (`NameError`) instead of leniently
returning an empty removed-set. -/
theorem unconstrain_explicit_transform_raises (which : Registry) (rav : List ℕ)
    (t : ℕ) (ts : List ℕ) :
    remove_from_index_operations which rav (t :: ts) =
      Except.error "NameError: local variable transforms referenced before assignment" :=
  rfl

/-! ## Transform bridge (`OptimizationHandlable`, parameter_core.py lines 537-575)

The parameter array becomes a Lean list over an arbitrary inhabited value type;
transformations become pairs of maps on that type. -/

/-- A transformation: forward map `f` (unconstrained to constrained) and inverse
`finv`; `isFixedT` marks the reserved `__fixed__` marker, which the
comprehensions skip via `if c != __fixed__`. -/
structure Transform (α : Type) where
  isFixedT : Bool
  f : α → α
  finv : α → α

/-- `np.put(p, ind, vals)` with the pairs already zipped: sequential writes
`p[i] := v` in order, later writes winning. -/
def npPut {α : Type} : List α → List (ℕ × α) → List α
  | p, [] => p
  | p, iv :: rest => npPut (p.set iv.1 iv.2) rest

/-- `np.put(p, ind, g(p[ind]))`: numpy gathers `p[ind]` and evaluates `g` on it
against the current `p` before any write, then writes the results back at `ind`
in order. -/
def npPutApply {α : Type} [Inhabited α] (p : List α) (ind : List ℕ) (g : α → α) :
    List α :=
  npPut p (ind.zip (ind.map fun i => g (p.getD i default)))

/-- The comprehension `[np.put(q, ind, use(c)(q[ind])) for c, ind in
self.constraints.iteritems() if c != __fixed__]` shared by `transform`,
`untransform` and `_get_params_transformed` (parameter_core.py lines 546-558):
fold over the registry entries in iteration order, skipping the fixed marker. -/
def apply_constraints {α : Type} [Inhabited α] (use : Transform α → α → α)
    (cs : List (Transform α × List ℕ)) (arr : List α) : List α :=
  cs.foldl (fun q c => if c.1.isFixedT then q else npPutApply q c.2 (use c.1)) arr

/-- Boolean-mask gather `p[fixes]` (numpy fancy indexing, used at line 557). -/
def mask_gather {α : Type} : List α → List Bool → List α
  | [], _ => []
  | _ :: _, [] => []
  | x :: xs, b :: bs => if b then x :: mask_gather xs bs else mask_gather xs bs

/-- Boolean-mask scatter `arr[fixes] = vals` (line 563): positions with a `true`
mask take successive values from `vals`. -/
def mask_scatter {α : Type} : List α → List Bool → List α → List α
  | [], _, _ => []
  | x :: xs, [], _ => x :: xs
  | x :: xs, b :: bs, vals =>
    if b then
      match vals with
      | [] => x :: xs
      | v :: vs => v :: mask_scatter xs bs vs
    else x :: mask_scatter xs bs vals

/-- `OptimizationHandlable._get_params_transformed` (parameter_core.py lines
552-558): copy the parameter array, apply every non-fixed transformation's
`finv` in registry order, and drop the fixed entries when a fixed mask is
present. -/
def get_params_transformed {α : Type} [Inhabited α]
    (cs : List (Transform α × List ℕ)) (fixes : Option (List Bool))
    (arr : List α) : List α :=
  let p := apply_constraints Transform.finv cs arr
  match fixes with
  | some m => mask_gather p m
  | none => p

/-- `OptimizationHandlable.untransform` (parameter_core.py lines 549-550). -/
def untransform {α : Type} [Inhabited α] (cs : List (Transform α × List ℕ))
    (arr : List α) : List α :=
  apply_constraints Transform.f cs arr

/-- Value effect of `OptimizationHandlable._set_params_transformed` (lines
560-566) on the parameter array, for an input `p` that is not the array itself:
write `p` into the array (into the non-fixed positions when a fixed mask is
present, wholesale otherwise — sizes agree in every caller), then
`untransform`; the final `_trigger_params_changed` does not change the array. -/
def set_params_transformed {α : Type} [Inhabited α]
    (cs : List (Transform α × List ℕ)) (fixes : Option (List Bool))
    (arr p : List α) : List α :=
  let arr1 := match fixes with
    | some m => mask_scatter arr m p
    | none => p
  untransform cs arr1

theorem npPut_length {α : Type} (prs : List (ℕ × α)) :
    ∀ p : List α, (npPut p prs).length = p.length := by
  induction prs with
  | nil => intro p; rfl
  | cons iv rest ih =>
    intro p
    rw [npPut, ih, List.length_set]

theorem getD_set_self {α : Type} {p : List α} {i : ℕ} (v d : α)
    (h : i < p.length) : (p.set i v).getD i d = v := by
  rw [List.getD_eq_getElem?_getD, List.getElem?_set_self h]
  rfl

theorem getD_set_ne {α : Type} {p : List α} {i j : ℕ} (v d : α)
    (h : i ≠ j) : (p.set i v).getD j d = p.getD j d := by
  rw [List.getD_eq_getElem?_getD, List.getElem?_set_ne h,
    ← List.getD_eq_getElem?_getD]

theorem getD_default_irrel {α : Type} {p : List α} {j : ℕ} (d1 d2 : α)
    (h : j < p.length) : p.getD j d1 = p.getD j d2 := by
  rw [List.getD_eq_getElem p d1 h, List.getD_eq_getElem p d2 h]

theorem npPut_getD_not_mem {α : Type} (d : α) (prs : List (ℕ × α)) :
    ∀ (p : List α) (j : ℕ), (∀ iv ∈ prs, iv.1 ≠ j) →
      (npPut p prs).getD j d = p.getD j d := by
  induction prs with
  | nil => intro p j _; rfl
  | cons iv rest ih =>
    intro p j h
    rw [npPut, ih (p.set iv.1 iv.2) j fun x hx => h x (List.mem_cons_of_mem iv hx)]
    exact getD_set_ne iv.2 d (h iv (List.mem_cons_self iv rest))

theorem npPutApply_length {α : Type} [Inhabited α] (p : List α) (ind : List ℕ)
    (g : α → α) : (npPutApply p ind g).length = p.length :=
  npPut_length _ p

theorem npPutApply_getD_not_mem {α : Type} [Inhabited α] (d : α) (p : List α)
    (ind : List ℕ) (g : α → α) (j : ℕ) (h : j ∉ ind) :
    (npPutApply p ind g).getD j d = p.getD j d := by
  refine npPut_getD_not_mem d _ p j ?_
  intro iv hiv
  have := List.of_mem_zip hiv
  intro hj
  exact h (hj ▸ this.1)

theorem npPutApply_getD_mem {α : Type} [Inhabited α] (d : α) (ind : List ℕ) :
    ∀ (p : List α) (g : α → α) (j : ℕ), ind.Nodup →
      (∀ i ∈ ind, i < p.length) → j ∈ ind →
      (npPutApply p ind g).getD j d = g (p.getD j d) := by
  induction ind with
  | nil => intro p g j _ _ hj; cases hj
  | cons i rest ih =>
    intro p g j hnd hran hj
    rcases List.nodup_cons.1 hnd with ⟨hi_not, hrest⟩
    have hstep : npPutApply p (i :: rest) g =
        npPut (p.set i (g (p.getD i default)))
          (rest.zip (rest.map fun x => g (p.getD x default))) := by
      rfl
    have hmapeq : (rest.map fun x => g (p.getD x default)) =
        (rest.map fun x => g ((p.set i (g (p.getD i default))).getD x default)) := by
      refine List.map_congr_left ?_
      intro x hx
      rw [getD_set_ne _ _ (fun he => hi_not (by rw [he]; exact hx))]
    have hstep2 : npPutApply p (i :: rest) g =
        npPutApply (p.set i (g (p.getD i default))) rest g := by
      rw [hstep, hmapeq]; rfl
    have hip : i < p.length := hran i (List.mem_cons_self i rest)
    rcases List.mem_cons.1 hj with hj | hj
    · subst hj
      rw [hstep2, npPutApply_getD_not_mem d _ rest g j hi_not,
        getD_set_self _ _ hip, getD_default_irrel default d hip]
    · have hjne : i ≠ j := fun he => hi_not (by rw [he]; exact hj)
      rw [hstep2, ih (p.set i (g (p.getD i default))) g j hrest
        (fun x hx => by rw [List.length_set]; exact hran x (List.mem_cons_of_mem i hx)) hj,
        getD_set_ne _ _ hjne]

theorem apply_constraints_cons {α : Type} [Inhabited α] (use : Transform α → α → α)
    (c : Transform α × List ℕ) (cs : List (Transform α × List ℕ)) (arr : List α) :
    apply_constraints use (c :: cs) arr =
      apply_constraints use cs
        (if c.1.isFixedT then arr else npPutApply arr c.2 (use c.1)) :=
  rfl

theorem apply_constraints_length {α : Type} [Inhabited α]
    (use : Transform α → α → α) (cs : List (Transform α × List ℕ)) :
    ∀ arr : List α, (apply_constraints use cs arr).length = arr.length := by
  induction cs with
  | nil => intro arr; rfl
  | cons c cs ih =>
    intro arr
    rw [apply_constraints_cons, ih]
    by_cases hf : c.1.isFixedT <;> simp [hf, npPutApply_length]

theorem apply_constraints_getD_not_mem {α : Type} [Inhabited α] (d : α)
    (use : Transform α → α → α) (cs : List (Transform α × List ℕ)) :
    ∀ (arr : List α) (j : ℕ), j ∉ (cs.map Prod.snd).flatten →
      (apply_constraints use cs arr).getD j d = arr.getD j d := by
  induction cs with
  | nil => intro arr j _; rfl
  | cons c cs ih =>
    intro arr j h
    rw [List.map_cons, List.flatten_cons, List.mem_append] at h
    push_neg at h
    rw [apply_constraints_cons, ih _ j h.2]
    by_cases hf : c.1.isFixedT
    · rw [if_pos hf]
    · rw [if_neg hf, npPutApply_getD_not_mem d arr c.2 (use c.1) j h.1]

theorem apply_constraints_getD {α : Type} [Inhabited α] (d : α)
    (use : Transform α → α → α) (cs : List (Transform α × List ℕ)) :
    ∀ (arr : List α) (j : ℕ), ((cs.map Prod.snd).flatten).Nodup →
      (∀ c ∈ cs, ∀ i ∈ c.2, i < arr.length) →
      (apply_constraints use cs arr).getD j d =
        (match cs.find? (fun c => c.2.contains j) with
         | some c => if c.1.isFixedT then arr.getD j d else use c.1 (arr.getD j d)
         | none => arr.getD j d) := by
  induction cs with
  | nil => intro arr j _ _; rfl
  | cons c cs ih =>
    intro arr j hnd hran
    rw [List.map_cons, List.flatten_cons] at hnd
    rcases List.nodup_append.1 hnd with ⟨h1, h2, hdisj⟩
    by_cases hj : j ∈ c.2
    · have hpred : c.2.contains j = true := by simpa using hj
      have hnotm : j ∉ (cs.map Prod.snd).flatten := hdisj hj
      have hfindc : List.find? (fun c' => c'.2.contains j) (c :: cs) = some c :=
        List.find?_cons_of_pos cs hpred
      rw [apply_constraints_cons,
        apply_constraints_getD_not_mem d use cs _ j hnotm, hfindc]
      show (if c.1.isFixedT then arr else npPutApply arr c.2 (use c.1)).getD j d =
        if c.1.isFixedT then arr.getD j d else use c.1 (arr.getD j d)
      by_cases hf : c.1.isFixedT
      · rw [if_pos hf, if_pos hf]
      · rw [if_neg hf, if_neg hf,
          npPutApply_getD_mem d c.2 arr (use c.1) j h1
            (fun i hi => hran c (List.mem_cons_self c cs) i hi) hj]
    · have hpred : c.2.contains j = false := by simpa using hj
      have hfindc : List.find? (fun c' => c'.2.contains j) (c :: cs) =
          List.find? (fun c' => c'.2.contains j) cs :=
        List.find?_cons_of_neg cs (by simpa using hj)
      have hq : (if c.1.isFixedT then arr else npPutApply arr c.2 (use c.1)).getD j d
          = arr.getD j d := by
        by_cases hf : c.1.isFixedT
        · rw [if_pos hf]
        · rw [if_neg hf, npPutApply_getD_not_mem d arr c.2 (use c.1) j hj]
      have hranq : ∀ c' ∈ cs, ∀ i ∈ c'.2,
          i < (if c.1.isFixedT then arr else npPutApply arr c.2 (use c.1)).length := by
        intro c' hc' i hi
        have : i < arr.length := hran c' (List.mem_cons_of_mem c hc') i hi
        by_cases hf : c.1.isFixedT <;> simp [hf, npPutApply_length, this]
      rw [apply_constraints_cons, ih _ j h2 hranq, hfindc]
      rcases hfind : List.find? (fun c' => c'.2.contains j) cs with _ | c'
      · rw [hfind]
        exact hq
      · rw [hfind]
        show (if c'.1.isFixedT then _ else use c'.1 _) =
          if c'.1.isFixedT then arr.getD j d else use c'.1 (arr.getD j d)
        rw [hq]

theorem list_ext_getD {α : Type} (d : α) (l1 l2 : List α)
    (hlen : l1.length = l2.length)
    (h : ∀ j, j < l1.length → l1.getD j d = l2.getD j d) : l1 = l2 := by
  refine List.ext_get hlen ?_
  intro n h1 h2
  have hg := h n h1
  rwa [List.getD_eq_getElem l1 d h1, List.getD_eq_getElem l2 d h2] at hg

/-- C2: on a container with no fixed entries, where the constrained flat
positions of the registry entries are pairwise disjoint (each position governed
by exactly one transform) and every transform satisfies `f (finv x) = x`,
`_set_params_transformed(_get_params_transformed())` — i.e.
`set_free_vector(get_free_vector())` — leaves every entry of the full parameter
vector unchanged. -/
theorem set_get_roundtrip {α : Type} [Inhabited α]
    (cs : List (Transform α × List ℕ)) (arr : List α)
    (hnf : ∀ c ∈ cs, c.1.isFixedT = false)
    (hbij : ∀ c ∈ cs, ∀ x : α, c.1.f (c.1.finv x) = x)
    (hnd : ((cs.map Prod.snd).flatten).Nodup)
    (hran : ∀ c ∈ cs, ∀ i ∈ c.2, i < arr.length) :
    set_params_transformed cs none arr (get_params_transformed cs none arr) = arr := by
  show apply_constraints Transform.f cs (apply_constraints Transform.finv cs arr) = arr
  have hlen1 : (apply_constraints Transform.finv cs arr).length = arr.length :=
    apply_constraints_length Transform.finv cs arr
  have hlen2 : (apply_constraints Transform.f cs
      (apply_constraints Transform.finv cs arr)).length = arr.length := by
    rw [apply_constraints_length, hlen1]
  have hranm : ∀ c ∈ cs, ∀ i ∈ c.2,
      i < (apply_constraints Transform.finv cs arr).length := by
    intro c hc i hi
    rw [hlen1]
    exact hran c hc i hi
  refine list_ext_getD default _ _ (by rw [hlen2]) ?_
  intro j hj
  have h1 := apply_constraints_getD default Transform.finv cs arr j hnd hran
  have h2 := apply_constraints_getD default Transform.f cs
    (apply_constraints Transform.finv cs arr) j hnd hranm
  rcases hfind : cs.find? (fun c => c.2.contains j) with _ | c
  · rw [h2, hfind]
    rw [hfind] at h1
    exact h1
  · have hc := List.mem_of_find?_eq_some hfind
    have hf := hnf c hc
    have h1x : (apply_constraints Transform.finv cs arr).getD j default =
        c.1.finv (arr.getD j default) := by
      rw [hfind] at h1
      simpa [hf] using h1
    rw [h2, hfind]
    show (if c.1.isFixedT then _ else c.1.f _) = arr.getD j default
    rw [if_neg (by simp [hf]), h1x]
    exact hbij c hc _

/-- Concrete registry for the C2 witness: one transform (shift by one) on flat
positions 0 and 2 of a length-3 integer parameter vector. -/
def csExample : List (Transform ℤ × List ℕ) :=
  [(⟨false, fun x => x + 1, fun x => x - 1⟩, [0, 2])]

/-- Concrete parameter vector for the C2 witness. -/
def arrExample : List ℤ := [5, 7, 9]

/-- Witness for C2 at a concrete registry and parameter vector. -/
theorem set_get_roundtrip_witness :
    (∀ c ∈ csExample, c.1.isFixedT = false) ∧
    (∀ c ∈ csExample, ∀ x : ℤ, c.1.f (c.1.finv x) = x) ∧
    ((csExample.map Prod.snd).flatten).Nodup ∧
    (∀ c ∈ csExample, ∀ i ∈ c.2, i < arrExample.length) ∧
    set_params_transformed csExample none arrExample
      (get_params_transformed csExample none arrExample) = arrExample := by
  have hbij : ∀ c ∈ csExample, ∀ x : ℤ, c.1.f (c.1.finv x) = x := by
    intro c hc x
    simp only [csExample, List.mem_singleton] at hc
    subst hc
    show x - 1 + 1 = x
    omega
  exact ⟨by decide, hbij, by decide, by decide,
    set_get_roundtrip csExample arrExample (by decide) hbij (by decide) (by decide)⟩

/-! ## C10: `_set_params_transformed` with an aliased input

To make aliasing observable, the assignment `self._param_array_[...] = p` is
modelled as the sequence of element writes it performs, each read of `p`
happening at the time of the write, so an aliased `p` would observe earlier
writes; the guard `if p is self._param_array_: p = p.copy()` (parameter_core.py
lines 561-562) is modelled by replacing the aliased input with a snapshot of
the array before any write. -/

/-- The argument of `_set_params_transformed`: an independent array, or the
object's own `_param_array_` (`p is self._param_array_`). -/
inductive PInput (α : Type) where
  | indep (vals : List α)
  | selfAlias

/-- Read entry `i` of the input while the backing array currently holds `arr`:
an aliased input reads through to the live array. -/
def read_input {α : Type} [Inhabited α] (pin : PInput α) (arr : List α) (i : ℕ) : α :=
  match pin with
  | .indep v => v.getD i default
  | .selfAlias => arr.getD i default

/-- Length of the input as seen against the current array. -/
def input_length {α : Type} : PInput α → List α → ℕ
  | .indep v, _ => v.length
  | .selfAlias, arr => arr.length

/-- `self._param_array_[:] = p` (line 564): element-wise sequential writes
`arr[k] := p[k]` for k = 0, 1, ...; `none` models the numpy broadcast error on
a length mismatch. -/
def assign_full {α : Type} [Inhabited α] (pin : PInput α) (arr : List α) :
    Option (List α) :=
  if input_length pin arr = arr.length then
    some ((List.range arr.length).foldl (fun a k => a.set k (read_input pin a k)) arr)
  else none

/-- Positions of the `True` entries of a boolean mask. -/
def mask_positions (m : List Bool) : List ℕ :=
  (m.enum.filter fun ib => ib.2).map fun ib => ib.1

/-- Sequential masked writes: `arr[q] := p[j]` for the j-th `True` position `q`. -/
def assign_masked_go {α : Type} [Inhabited α] (pin : PInput α) :
    ℕ → List ℕ → List α → List α
  | _, [], arr => arr
  | j, q :: qs, arr => assign_masked_go pin (j + 1) qs (arr.set q (read_input pin arr j))

/-- `self._param_array_[self._fixes_] = p` (line 563): writes `p` into the
mask's `True` positions in ascending order; `none` models the numpy error when
`p`'s length differs from the number of `True` entries. -/
def assign_masked {α : Type} [Inhabited α] (pin : PInput α) (m : List Bool)
    (arr : List α) : Option (List α) :=
  if input_length pin arr = (mask_positions m).length then
    some (assign_masked_go pin 0 (mask_positions m) arr)
  else none

/-- `OptimizationHandlable._set_params_transformed(p)` (parameter_core.py lines
560-566) with explicit aliasing: first the guard `if p is self._param_array_:
p = p.copy()` snapshots an aliased input, then the masked or full assignment
runs, then `untransform`. -/
def set_params_transformed_impl {α : Type} [Inhabited α]
    (cs : List (Transform α × List ℕ)) (fixes : Option (List Bool))
    (arr : List α) (pin : PInput α) : Option (List α) :=
  let pin1 := match pin with
    | PInput.selfAlias => PInput.indep arr
    | x => x
  match fixes with
  | none => (assign_full pin1 arr).map (untransform cs)
  | some m => (assign_masked pin1 m arr).map (untransform cs)

theorem assign_full_indep {α : Type} [Inhabited α] (v : List α) (arr : List α)
    (hlen : v.length = arr.length) :
    assign_full (PInput.indep v) arr = some v := by
  have hstep : ∀ n : ℕ,
      (List.range n).foldl (fun a k => a.set k (read_input (PInput.indep v) a k)) arr =
        (List.range n).foldl (fun a k => a.set k (v.getD k default)) arr := by
    intro n
    induction n with
    | zero => rfl
    | succ n ih => rw [List.range_succ, List.foldl_append, List.foldl_append, ih]; rfl
  have hlen2 : ∀ n : ℕ,
      ((List.range n).foldl (fun a k => a.set k (v.getD k default)) arr).length =
        arr.length := by
    intro n
    induction n with
    | zero => rfl
    | succ n ih =>
      rw [List.range_succ, List.foldl_append]
      simp only [List.foldl_cons, List.foldl_nil, List.length_set]
      exact ih
  have hgetD : ∀ (n : ℕ) (j : ℕ), j < arr.length →
      ((List.range n).foldl (fun a k => a.set k (v.getD k default)) arr).getD j default =
        if j < n then v.getD j default else arr.getD j default := by
    intro n
    induction n with
    | zero => intro j hj; simp
    | succ n ih =>
      intro j hj
      rw [List.range_succ, List.foldl_append]
      simp only [List.foldl_cons, List.foldl_nil]
      by_cases hjn : j = n
      · subst hjn
        rw [getD_set_self _ _ (by rw [hlen2]; exact hj)]
        simp [hj]
      · rw [getD_set_ne _ _ (Ne.symm hjn), ih j hj]
        by_cases hlt : j < n
        · rw [if_pos hlt, if_pos (by omega)]
        · rw [if_neg hlt, if_neg (by omega)]
  unfold assign_full
  rw [if_pos (by simpa [input_length] using hlen)]
  refine congrArg some ?_
  rw [hstep]
  refine list_ext_getD default _ _ (by rw [hlen2, hlen]) ?_
  intro j hj
  have hja : j < arr.length := by rwa [hlen2] at hj
  rw [hgetD arr.length j hja, if_pos hja]

/-- C10: calling `_set_params_transformed` with `p` being the object's own
backing parameter array produces exactly the same result as calling it with an
independent copy of `p` (the guard copies the input before any write), and in
the no-fixed-mask case the final array is `untransform` of the snapshot — no
entry is read after having been overwritten. -/
theorem set_params_transformed_alias_safe {α : Type} [Inhabited α]
    (cs : List (Transform α × List ℕ)) (fixes : Option (List Bool))
    (arr : List α) :
    set_params_transformed_impl cs fixes arr PInput.selfAlias =
      set_params_transformed_impl cs fixes arr (PInput.indep arr) ∧
    set_params_transformed_impl cs none arr PInput.selfAlias =
      some (set_params_transformed cs none arr arr) := by
  constructor
  · rfl
  · show (assign_full (PInput.indep arr) arr).map (untransform cs) = _
    rw [assign_full_indep arr arr rfl]
    rfl

/-! ## Cache (`Cacher`, GPy/util/caching.py)

Arguments are `Option ℕ`: `none` is Python `None`, `some i` an object with
identity `i`; `obs i` says whether object `i` is an `Observable`.  The wrapped
operation is an arbitrary function `op` of the argument tuple; `ncalls` counts
its invocations. -/

/-- State of a `Cacher` (caching.py lines 12-18), plus the multiset of its
active observer subscriptions (one entry per `add_observer(self,
self.on_cache_changed)` performed on an argument) and the invocation counter of
the wrapped operation. -/
structure CacherState where
  limit : ℕ
  ignore_args : List ℕ
  cached_inputs : List (List (Option ℕ))
  cached_outputs : List ℕ
  inputs_changed : List Bool
  subscriptions : List (Option ℕ)
  ncalls : ℕ
deriving DecidableEq

/-- A fresh `Cacher` (caching.py lines 12-18). -/
def initCacher (limit : ℕ) (ignore : List ℕ) : CacherState :=
  ⟨limit, ignore, [], [], [], [], 0⟩

/-- `oa = [a for i, a in enumerate(args) if i not in self.ignore_args]`
(caching.py line 27), tracking the running position `i`. -/
def non_ignored_from (ignore : List ℕ) : ℕ → List (Option ℕ) → List (Option ℕ)
  | _, [] => []
  | i, a :: rest =>
    if ignore.contains i then non_ignored_from ignore (i + 1) rest
    else a :: non_ignored_from ignore (i + 1) rest

/-- Lines 26-29: with an empty `ignore_args` the tuple is used as is. -/
def non_ignored (ignore : List ℕ) (args : List (Option ℕ)) : List (Option ℕ) :=
  if ignore.isEmpty then args else non_ignored_from ignore 0 args

/-- The loop building `observable_args` (caching.py lines 32-35): first
occurrence of each non-`None` argument, in order. -/
def observable_args_loop (acc : List (Option ℕ)) : List (Option ℕ) → List (Option ℕ)
  | [] => acc
  | a :: rest =>
    if !(acc.contains a) && !(a == none) then observable_args_loop (acc ++ [a]) rest
    else observable_args_loop acc rest

/-- `observable_args` of a call (caching.py lines 32-35). -/
def observable_args (ignore : List ℕ) (args : List (Option ℕ)) : List (Option ℕ) :=
  observable_args_loop [] (non_ignored ignore args)

/-- `isinstance(arg, Observable)` for a modelled argument. -/
def is_observable (obs : ℕ → Bool) : Option ℕ → Bool
  | some i => obs i
  | none => false

/-- `all(a is b for a, b in itertools.izip_longest(args, cached_i))`
(caching.py line 46): pad the shorter tuple with `None` and compare pointwise
by identity. -/
def izip_eq : List (Option ℕ) → List (Option ℕ) → Bool
  | [], bs => bs.all (fun b => b == none)
  | a :: ar, [] => (a == none) && izip_eq ar []
  | a :: ar, b :: bs => (a == b) && izip_eq ar bs

/-- Appending a freshly computed entry (caching.py lines 64-69): cache the
inputs, compute and cache the output, clear the changed flag, subscribe to
every observable argument, and return the just-appended output. -/
def cacher_store (op : List (Option ℕ) → ℕ) (st : CacherState)
    (args oargs : List (Option ℕ)) : CacherState × ℕ :=
  ({ st with
      cached_inputs := st.cached_inputs ++ [args],
      cached_outputs := st.cached_outputs ++ [op args],
      inputs_changed := st.inputs_changed ++ [false],
      subscriptions := st.subscriptions ++ oargs,
      ncalls := st.ncalls + 1 },
   op args)

/-- `Cacher.__call__(*args)` (caching.py lines 20-69): pass-through without
caching when some observable-argument candidate is not `Observable`; on a cache
hit return the cached output, recomputing it first if the entry was flagged
changed; on a miss, evict the oldest entry at capacity (dropping its observer
subscriptions — `Except.error` models the `AttributeError` crash when an
evicted tuple holds a non-`None` argument without `remove_observer`), then
compute, cache and subscribe. -/
def cacher_call (obs : ℕ → Bool) (op : List (Option ℕ) → ℕ)
    (st : CacherState) (args : List (Option ℕ)) :
    Except String (CacherState × ℕ) :=
  let oargs := observable_args st.ignore_args args
  if !(oargs.all (is_observable obs)) then
    Except.ok ({ st with ncalls := st.ncalls + 1 }, op args)
  else
    match st.cached_inputs.findIdx? (fun ci => izip_eq args ci) with
    | some i =>
      if st.inputs_changed.getD i false then
        Except.ok ({ st with
          cached_outputs := st.cached_outputs.set i (op args),
          inputs_changed := st.inputs_changed.set i false,
          ncalls := st.ncalls + 1 },
          (st.cached_outputs.set i (op args)).getD i 0)
      else
        Except.ok (st, st.cached_outputs.getD i 0)
    | none =>
      if st.cached_inputs.length = st.limit then
        let args0 := st.cached_inputs.getD 0 []
        if args0.all (fun a => (a == none) || is_observable obs a) then
          Except.ok (cacher_store op
            { st with
              cached_inputs := st.cached_inputs.tail,
              cached_outputs := st.cached_outputs.tail,
              inputs_changed := st.inputs_changed.tail,
              subscriptions := st.subscriptions.filter (fun s => !(args0.contains s)) }
            args oargs)
        else
          Except.error "AttributeError: object has no attribute remove_observer"
      else
        Except.ok (cacher_store op st args oargs)

/-- `Cacher.on_cache_changed(arg)` (caching.py lines 71-77): flag every cached
tuple containing the notifying argument. -/
def on_cache_changed (st : CacherState) (arg : Option ℕ) : CacherState :=
  { st with inputs_changed := ((st.cached_inputs.zip st.inputs_changed).map
      (fun ci => ci.1.contains arg || ci.2)) }

/-- A mutation reported by argument `x`: each of the cacher's subscription
entries on `x` invokes `on_cache_changed` once. -/
def mutate_arg (st : CacherState) (x : Option ℕ) : CacherState :=
  (List.replicate (st.subscriptions.count x) ()).foldl
    (fun s _ => on_cache_changed s x) st

theorem izip_eq_refl : ∀ l : List (Option ℕ), izip_eq l l = true := by
  intro l
  induction l with
  | nil => rfl
  | cons a ar ih => simp [izip_eq, ih]

theorem mem_non_ignored_from {x : Option ℕ} (ignore : List ℕ) :
    ∀ (i : ℕ) (l : List (Option ℕ)), x ∈ non_ignored_from ignore i l → x ∈ l := by
  intro i l
  induction l generalizing i with
  | nil => intro h; simp [non_ignored_from] at h
  | cons a rest ih =>
    intro h
    unfold non_ignored_from at h
    by_cases hc : ignore.contains i
    · rw [if_pos hc] at h
      exact List.mem_cons_of_mem a (ih (i + 1) h)
    · rw [if_neg hc] at h
      rcases List.mem_cons.1 h with h | h
      · exact h ▸ List.mem_cons_self a rest
      · exact List.mem_cons_of_mem a (ih (i + 1) h)

theorem mem_observable_args_loop {x : Option ℕ} :
    ∀ (l acc : List (Option ℕ)), x ∈ observable_args_loop acc l →
      x ∈ acc ∨ x ∈ l := by
  intro l
  induction l with
  | nil => intro acc h; exact Or.inl (by simpa [observable_args_loop] using h)
  | cons a rest ih =>
    intro acc h
    unfold observable_args_loop at h
    by_cases hc : (!(acc.contains a) && !(a == none)) = true
    · rw [if_pos hc] at h
      rcases ih (acc ++ [a]) h with h | h
      · rcases List.mem_append.1 h with h | h
        · exact Or.inl h
        · exact Or.inr (by simpa using Or.inl (List.mem_singleton.1 h))
      · exact Or.inr (List.mem_cons_of_mem a h)
    · rw [if_neg hc] at h
      rcases ih acc h with h | h
      · exact Or.inl h
      · exact Or.inr (List.mem_cons_of_mem a h)

theorem mem_observable_args {x : Option ℕ} {ignore : List ℕ}
    {args : List (Option ℕ)} (h : x ∈ observable_args ignore args) : x ∈ args := by
  rcases mem_observable_args_loop (non_ignored ignore args) [] h with h | h
  · cases h
  · unfold non_ignored at h
    by_cases he : ignore.isEmpty
    · rwa [if_pos he] at h
    · rw [if_neg he] at h
      exact mem_non_ignored_from ignore 0 args h

theorem cacher_changed_flag_iter (x : Option ℕ) (limit : ℕ) (ignore : List ℕ)
    (ci : List (Option ℕ)) (out : ℕ) (subs : List (Option ℕ)) (n : ℕ) :
    ∀ (j : ℕ) (b : Bool),
      (List.replicate j ()).foldl (fun s _ => on_cache_changed s x)
        ⟨limit, ignore, [ci], [out], [ci.contains x || b], subs, n⟩ =
      ⟨limit, ignore, [ci], [out], [ci.contains x || b], subs, n⟩ := by
  intro j
  induction j with
  | zero => intro b; rfl
  | succ j ih =>
    intro b
    rw [List.replicate_succ, List.foldl_cons]
    have hstep : on_cache_changed
        ⟨limit, ignore, [ci], [out], [ci.contains x || b], subs, n⟩ x =
        ⟨limit, ignore, [ci], [out], [ci.contains x || b], subs, n⟩ := by
      have hb : (ci.contains x || (ci.contains x || b)) = (ci.contains x || b) := by
        cases ci.contains x <;> cases b <;> rfl
      show (⟨limit, ignore, [ci], [out],
        [ci.contains x || (ci.contains x || b)], subs, n⟩ : CacherState) = _
      rw [hb]
    rw [hstep]
    exact ih b

theorem mutate_arg_fresh (x : Option ℕ) (limit : ℕ) (ignore : List ℕ)
    (ci : List (Option ℕ)) (out : ℕ) (subs : List (Option ℕ)) (n : ℕ)
    (hsub : x ∈ subs) (hci : ci.contains x = true) :
    mutate_arg ⟨limit, ignore, [ci], [out], [false], subs, n⟩ x =
      ⟨limit, ignore, [ci], [out], [true], subs, n⟩ := by
  obtain ⟨j, hj⟩ : ∃ j, subs.count x = j + 1 := by
    have := List.count_pos_iff.2 hsub
    exact ⟨subs.count x - 1, by omega⟩
  have h0 : mutate_arg ⟨limit, ignore, [ci], [out], [false], subs, n⟩ x =
      (List.replicate (subs.count x) ()).foldl (fun s _ => on_cache_changed s x)
        ⟨limit, ignore, [ci], [out], [false], subs, n⟩ := rfl
  have h1 : on_cache_changed ⟨limit, ignore, [ci], [out], [false], subs, n⟩ x =
      ⟨limit, ignore, [ci], [out], [ci.contains x || false], subs, n⟩ := rfl
  rw [h0, hj, List.replicate_succ, List.foldl_cons, h1,
    cacher_changed_flag_iter x limit ignore ci out subs n j false, hci]
  rfl

/-- C8: for a `Cacher` whose (non-ignored, non-`None`) arguments are all
observable: starting from a fresh cacher with positive depth limit, a first
call with tuple `args` invokes the wrapped operation (once) and returns its
result; an identical second call with no mutation notification in between
leaves the cacher unchanged — the operation is not re-invoked and the cached
result is returned; and if any cached argument reports a mutation between the
calls, the second call re-invokes the wrapped operation. -/
theorem cacher_coherence (obs : ℕ → Bool) (op : List (Option ℕ) → ℕ)
    (limit : ℕ) (ignore : List ℕ) (args : List (Option ℕ))
    (hlim : 1 ≤ limit)
    (hobs : (observable_args ignore args).all (is_observable obs) = true) :
    ∃ st1 : CacherState,
      cacher_call obs op (initCacher limit ignore) args = Except.ok (st1, op args) ∧
      st1.ncalls = 1 ∧
      cacher_call obs op st1 args = Except.ok (st1, op args) ∧
      (∀ x, x ∈ observable_args ignore args →
        ∃ st2 : CacherState,
          cacher_call obs op (mutate_arg st1 x) args = Except.ok (st2, op args) ∧
          st2.ncalls = 2) := by
  have hne : ¬ ((0 : ℕ) = limit) := by omega
  refine ⟨⟨limit, ignore, [args], [op args], [false], observable_args ignore args, 1⟩,
    ?_, rfl, ?_, ?_⟩
  · simp [cacher_call, initCacher, hobs, hne, cacher_store]
  · simp [cacher_call, hobs, izip_eq_refl, List.findIdx?_cons]
  · intro x hx
    have hci : args.contains x = true := by
      simpa using mem_observable_args hx
    rw [mutate_arg_fresh x limit ignore args (op args)
      (observable_args ignore args) 1 hx hci]
    refine ⟨⟨limit, ignore, [args], [op args], [false],
      observable_args ignore args, 2⟩, ?_, rfl⟩
    simp [cacher_call, hobs, izip_eq_refl, List.findIdx?_cons]

/-- Witness for C8 at a concrete cacher: two observable arguments, no ignored
positions, limit 5, the wrapped operation returning the tuple length. -/
theorem cacher_coherence_witness :
    1 ≤ 5 ∧
    ((observable_args [] [some 0, some 1]).all (is_observable fun _ => true) = true) ∧
    (∃ st1 : CacherState,
      cacher_call (fun _ => true) (fun l => l.length) (initCacher 5 [])
          [some 0, some 1] = Except.ok (st1, [some 0, some 1].length) ∧
      st1.ncalls = 1 ∧
      cacher_call (fun _ => true) (fun l => l.length) st1 [some 0, some 1] =
        Except.ok (st1, [some 0, some 1].length) ∧
      (∀ x, x ∈ observable_args [] [some 0, some 1] →
        ∃ st2 : CacherState,
          cacher_call (fun _ => true) (fun l => l.length) (mutate_arg st1 x)
              [some 0, some 1] = Except.ok (st2, [some 0, some 1].length) ∧
          st2.ncalls = 2)) :=
  ⟨by decide, by decide,
    cacher_coherence (fun _ => true) (fun l => l.length) 5 [] [some 0, some 1]
      (by decide) (by decide)⟩
